import Mathlib

/-!
Shallow embedding of `xdg-terminal-exec` (`src/main.rs`), a terminal-emulator
chooser/launcher: it builds an ordered deduplicated candidate list from
preference-list files and data-directory listings, filters desktop-entry
descriptors by visibility/availability, and execs the first candidate whose
process replacement succeeds.

External capabilities (the freedesktop entry file parsing crate, the
`xdg` base-directory convention, `which`,
and `exec`) are modeled as explicit function parameters; the decision logic
itself is translated directly from the Rust source.
-/

namespace XdgTermExec

/-- Model of the parsed `Desktop Entry` file section of an `Entry` from
the freedesktop entry parsing crate: an association list of attribute names to
string values. `attr` returns the first binding for a name, mirroring
`section.attr(name) : Option<&str>`. -/
structure EntrySection where
  attrs : List (String × String)
deriving DecidableEq

def EntrySection.attr (sec : EntrySection) (name : String) : Option String :=
  (sec.attrs.find? (fun p => p.1 == name)).map (fun p => p.2)

/-- The constant `XDG_TERMINALS_LIST` from the source. -/
def XDG_TERMINALS_LIST : String := "xdg-terminals.list"

/-- Splitting a character list at every occurrence of `sep`, Rust
`str::split(sep)` semantics: returns the first piece and the remaining
pieces (the result is always the nonempty list `r.1 :: r.2`). -/
def splitCharList (sep : Char) : List Char → List Char × List (List Char)
  | [] => ([], [])
  | c :: cs =>
    let r := splitCharList sep cs
    if c = sep then ([], r.1 :: r.2) else (c :: r.1, r.2)

/-- Rust `s.split(sep)` on a string: every piece, including empty ones. -/
def rustSplitChar (sep : Char) (s : String) : List String :=
  let r := splitCharList sep s.data
  (r.1 :: r.2).map (fun l => ⟨l⟩)

/-- Model of `desktops()` applied to the value of `XDG_CURRENT_DESKTOP`:
split on `:` and drop empty tokens. -/
def desktopsFrom (v : String) : List String :=
  (rustSplitChar ':' v).filter (fun s => !s.isEmpty)

/-- Model of `config_file_names`: `format!("{}-{}", desktop, XDG_TERMINALS_LIST)`
for each desktop id, then the bare list name appended (`chain(once(...))`). -/
def config_file_names (desktops : List String) : List String :=
  desktops.map (fun desktop => desktop ++ "-" ++ XDG_TERMINALS_LIST) ++ [XDG_TERMINALS_LIST]

/-- Model of `config_paths`: for each config directory (`config_home` then the
system `config_dirs`, in order) join every config file name, keeping only
paths that exist. A path is modeled as the pair (directory, file name);
`pathExists` models `path.try_exists().unwrap_or(false)`. -/
def config_paths (configDirs : List String) (names : List String)
    (pathExists : String → String → Bool) : List (String × String) :=
  (configDirs.flatMap (fun dir => names.map (fun name => (dir, name)))).filter
    (fun p => pathExists p.1 p.2)

/-- Rust `s.split(';')` on a string: every piece, including empty ones. -/
def rustSplit (s : String) : List String :=
  rustSplitChar ';' s

/-- Rust `s.split_terminator(';')`: like `split(';')`, but the final substring
is skipped when it is empty (i.e. when the string is empty or ends in `;`). -/
def split_terminator (s : String) : List String :=
  let ps := rustSplit s
  if ps.getLast? = some "" then ps.dropLast else ps

/-- The membership test shared by the `NotShowIn`/`OnlyShowIn` checks of
`entry`: does any `;`-terminated item of `v` equal some current desktop id
(`.any(|item| desktops.iter().any(|desktop| desktop == item))`). -/
def showMatch (v : String) (desktops : List String) : Bool :=
  (split_terminator v).any (fun item => desktops.any (fun desktop => desktop == item))

/-- Model of the filter chain of `entry` (after the file has been located and
parsed): `Hidden`, `NotShowIn`, `OnlyShowIn`, `TryExec`, in source order.
`whichOk te` models `which::which(te).is_ok()`. Returns `true` iff the
descriptor is accepted. -/
def entryAccepts (sec : EntrySection) (desktops : List String)
    (whichOk : String → Bool) : Bool :=
  if sec.attr "Hidden" == some "true" then false
  else if (match sec.attr "NotShowIn" with
           | some v => showMatch v desktops
           | none => false) then false
  else if (match sec.attr "OnlyShowIn" with
           | some v => !(showMatch v desktops)
           | none => false) then false
  else (match sec.attr "TryExec" with
        | some te => whichOk te
        | none => true)

/-- Model of the `exec_arg` resolution in `run`:
`section.attr("X-ExecArg").or_else(|| section.attr("ExecArg")).unwrap_or("-e")`. -/
def exec_arg (sec : EntrySection) : String :=
  (((sec.attr "X-ExecArg").orElse (fun _ => sec.attr "ExecArg")).getD "-e")

/-- Rust `Vec::<String>::join(" ")`. -/
def joinSpace : List String → String
  | [] => ""
  | x :: xs => xs.foldl (fun acc a => acc ++ " " ++ a) x

/-- Model of the command-string construction in `run`: the single string
passed to `sh -c`. `none` models the `expect("attribute Exec is required")`
panic taken when the section has no `Exec` attribute (the Rust process
aborts there). -/
def shellCommand (sec : EntrySection) (args : List String) : Option String :=
  match sec.attr "Exec" with
  | none => none
  | some exec =>
    some (if args.isEmpty then exec else joinSpace (exec :: exec_arg sec :: args))

/-- Spec-side restatement of the exec-arg flag resolution order:
`X-ExecArg` over `ExecArg` over the default `-e`. -/
def resolvedExecArgSpec (sec : EntrySection) : String :=
  match sec.attr "X-ExecArg" with
  | some x => x
  | none =>
    match sec.attr "ExecArg" with
    | some x => x
    | none => "-e"

/-- The per-run environment seen by `main`'s `handle` closure: the current
desktop ids plus the external capabilities it calls. `findDataFile` models
`dirs.find_data_file`, `parseEntry` models `Entry::parse_file(..).ok()`
restricted to its `Desktop Entry` section, `whichOk` models `which::which`,
`execOk cmd` tells whether `Command::new("sh").arg("-c").arg(cmd).exec()`
succeeds (replacing the process) or returns an error. -/
structure Env where
  desktops : List String
  findDataFile : String → Option String
  parseEntry : String → Option EntrySection
  whichOk : String → Bool
  execOk : String → Bool
  args : List String
deriving Inhabited

/-- Possible results of processing one (not-yet-seen) candidate id inside
`handle`: skipped (file not found, parse failure, or filter rejection);
aborted by the missing-`Exec` panic in `run`; process replaced by a
successful `exec`; or `exec` returned an error. -/
inductive StepResult where
  | skip
  | panicStop
  | launched (cmd : String)
  | execFailed (cmd : String)
deriving DecidableEq

/-- One candidate's fate: `dirs.find_data_file(id)`, then `entry(path)`,
then `run(entry, args)`, exactly as chained in `handle`. -/
def step (e : Env) (id : String) : StepResult :=
  match e.findDataFile id with
  | none => .skip
  | some path =>
    match e.parseEntry path with
    | none => .skip
    | some sec =>
      if entryAccepts sec e.desktops e.whichOk then
        match shellCommand sec e.args with
        | none => .panicStop
        | some cmd => if e.execOk cmd then .launched cmd else .execFailed cmd
      else .skip

/-- Outcome of walking a candidate sequence: the process was replaced at
0-based position `idx` by candidate `id` running `cmd`; the run aborted with
the missing-`Exec` panic at position `idx`; or the sequence was exhausted,
leaving the final seen-set and position counter. -/
inductive Outcome where
  | replaced (idx : Nat) (id : String) (cmd : String)
  | panicked (idx : Nat) (id : String)
  | exhausted (seen : List String) (idx : Nat)
deriving DecidableEq

/-- Model of `for_each(&mut handle)` over a candidate list: the seen-set
(`HashSet`, modeled as a list consulted by membership) is checked and
updated first; a launched candidate ends the run (the process is replaced),
a missing-`Exec` candidate aborts it, anything else continues. -/
def runSeq (e : Env) : List String → Nat → List String → Outcome
  | seen, idx, [] => .exhausted seen idx
  | seen, idx, id :: rest =>
    if id ∈ seen then runSeq e seen (idx + 1) rest
    else
      match step e id with
      | .launched cmd => .replaced idx id cmd
      | .panicStop => .panicked idx id
      | _ => runSeq e (id :: seen) (idx + 1) rest

/-- The subsequence of candidate ids actually processed (those passing the
seen-set check), i.e. the deduplicated candidate sequence the orchestrator
walks. -/
def walkDedup : List String → List String → List String
  | _, [] => []
  | seen, id :: rest =>
    if id ∈ seen then walkDedup seen rest else id :: walkDedup (id :: seen) rest

/-- The merged, deduplicated candidate sequence of one run: configured
entries first, then present entries, first occurrence winning. -/
def candidateSequence (conf pres : List String) : List String :=
  walkDedup [] (conf ++ pres)

/-- The ordered list of candidate ids on which a process replacement is
actually attempted (i.e. `cmd.exec()` is reached): seen candidates are
skipped, a successful exec is the last attempt, the missing-`Exec` panic
aborts before any further attempt. -/
def attempts (e : Env) : List String → List String → List String
  | _, [] => []
  | seen, id :: rest =>
    if id ∈ seen then attempts e seen rest
    else
      match step e id with
      | .launched _ => [id]
      | .panicStop => []
      | .execFailed _ => id :: attempts e (id :: seen) rest
      | .skip => attempts e (id :: seen) rest

/-- A candidate passes the visibility/availability filter: its descriptor
file is found, parses, and `entryAccepts` holds. -/
def passesFilter (e : Env) (id : String) : Bool :=
  match e.findDataFile id with
  | none => false
  | some path =>
    match e.parseEntry path with
    | none => false
    | some sec => entryAccepts sec e.desktops e.whichOk

/-- The candidate's launch attempt succeeds (its `exec` replaces the process). -/
def launches (e : Env) (id : String) : Bool :=
  match step e id with
  | .launched _ => true
  | _ => false

/-- The candidate reaches an actual `exec` attempt (it passes the filter and
has an `Exec` attribute). -/
def isAttemptable (e : Env) (id : String) : Bool :=
  match step e id with
  | .launched _ => true
  | .execFailed _ => true
  | _ => false

/-- Keep elements up to and including the first one satisfying `p`. -/
def takeThrough (p : α → Bool) : List α → List α
  | [] => []
  | x :: xs => if p x then [x] else x :: takeThrough p xs

/-- The fatal (run-aborting, non-zero-exit) error causes propagated by `?`
in `main`: `env::var("XDG_CURRENT_DESKTOP")` failing,
`xdg::BaseDirectories` construction failing, an I/O error reading an
existing config file, and an I/O error listing an existing data root. -/
inductive Fatal where
  | missingDesktopContext
  | baseDirFailure
  | configReadFailure
  | dataRootListFailure
deriving DecidableEq

/-- The whole external world of one invocation. `xdgCurrentDesktop` is the
environment variable (`none` = unset/unreadable); `baseDirsOk` tells whether
`xdg::BaseDirectories` construction succeeds; `configRead dir name` returns
the lines of that preference-list file or `none` on an I/O error;
`dataDirs`/`dataDirExists`/`dataList` model the data roots, their existence
check, and `fs::read_dir` returning the listed file names or an I/O error.
The remaining fields are as in `Env`. -/
structure World where
  xdgCurrentDesktop : Option String
  baseDirsOk : Bool
  configDirs : List String
  configExists : String → String → Bool
  configRead : String → String → Option (List String)
  dataDirs : List String
  dataDirExists : String → Bool
  dataList : String → Option (List String)
  findDataFile : String → Option String
  parseEntry : String → Option EntrySection
  whichOk : String → Bool
  execOk : String → Bool
  args : List String

/-- The per-candidate environment induced by a world and the computed
desktop-id list. -/
def World.env (w : World) (desktops : List String) : Env :=
  ⟨desktops, w.findDataFile, w.parseEntry, w.whichOk, w.execOk, w.args⟩

/-- Model of `desktops()`: read `XDG_CURRENT_DESKTOP` (its absence is the
fatal `VarError`), then split. -/
def desktopsResult (w : World) : Except Fatal (List String) :=
  match w.xdgCurrentDesktop with
  | none => .error .missingDesktopContext
  | some v => .ok (desktopsFrom v)

/-- Model of `configured_entries`: build the config file names, enumerate the
existing config paths (the `xdg::BaseDirectories::new()` inside
`config_paths` can fail), read every file (`collect::<io::Result<..>>` fails
on the first I/O error), and concatenate their lines in order. -/
def configured_entries (w : World) (desktops : List String) :
    Except Fatal (List String) :=
  if w.baseDirsOk then
    let paths := config_paths w.configDirs (config_file_names desktops) w.configExists
    match paths.mapM (fun p => w.configRead p.1 p.2) with
    | none => .error .configReadFailure
    | some texts => .ok texts.flatten
  else .error .baseDirFailure

/-- Model of `present_entries`: keep the existing data roots, `read_dir`
each (failing the run on the first I/O error), and concatenate the listed
file names in root order. -/
def present_entries (w : World) : Except Fatal (List String) :=
  match (w.dataDirs.filter w.dataDirExists).mapM w.dataList with
  | none => .error .dataRootListFailure
  | some listings => .ok listings.flatten

/-- Model of `main`: compute the desktop ids, construct the prefixed
`BaseDirectories`, walk the configured entries with `handle` (a successful
exec or a panic there preempts everything after), then compute the present
entries and walk them with the same seen-set. -/
def mainModel (w : World) : Except Fatal Outcome :=
  match desktopsResult w with
  | .error f => .error f
  | .ok desktops =>
    if w.baseDirsOk then
      match configured_entries w desktops with
      | .error f => .error f
      | .ok conf =>
        match runSeq (w.env desktops) [] 0 conf with
        | .exhausted seen idx =>
          match present_entries w with
          | .error f => .error f
          | .ok pres => .ok (runSeq (w.env desktops) seen idx pres)
        | o => .ok o
    else .error .baseDirFailure

/-- Observable exit status of the modeled process: `none` when the process
image was replaced (this program never exits), `0` on normal completion,
`101` for a Rust panic, `1` for an error returned from `main`. -/
def exitCode : Except Fatal Outcome → Option Nat
  | .error _ => some 1
  | .ok (.replaced _ _ _) => none
  | .ok (.panicked _ _) => some 101
  | .ok (.exhausted _ _) => some 0

/-- Concrete environment: candidate "a" passes the filter but its section has
no `Exec` attribute; candidate "b" has `Exec=bterm` and its exec would
succeed. -/
def panicEnv : Env where
  desktops := ["GNOME"]
  findDataFile := fun id => some id
  parseEntry := fun p =>
    if p = "a" then some ⟨[("Terminal", "true")]⟩
    else if p = "b" then some ⟨[("Exec", "bterm")]⟩
    else none
  whichOk := fun _ => true
  execOk := fun _ => true
  args := []

/-- Concrete environment: candidate "b" passes the filter and its exec
attempt fails; candidate "c" passes the filter but has no `Exec`. -/
def abortEnv : Env where
  desktops := ["GNOME"]
  findDataFile := fun id => some id
  parseEntry := fun p =>
    if p = "b" then some ⟨[("Exec", "bterm")]⟩
    else if p = "c" then some ⟨[("Terminal", "true")]⟩
    else none
  whichOk := fun _ => true
  execOk := fun _ => false
  args := []

/-- Concrete environment with a hidden candidate "h" and three candidates
with `Exec`, of which only "t2"'s exec succeeds. -/
def fallbackEnv : Env where
  desktops := ["GNOME"]
  findDataFile := fun id => some id
  parseEntry := fun p =>
    if p = "h" then some ⟨[("Hidden", "true"), ("Exec", "hterm")]⟩
    else some ⟨[("Exec", p)]⟩
  whichOk := fun _ => true
  execOk := fun c => c = "t2"
  args := []

/-- Concrete world whose single configured candidate "a" passes the filter
but has no `Exec` attribute: the run ends in the missing-`Exec` panic. -/
def panicWorld : World where
  xdgCurrentDesktop := some "GNOME"
  baseDirsOk := true
  configDirs := ["cfg"]
  configExists := fun _ name => name = XDG_TERMINALS_LIST
  configRead := fun _ _ => some ["a"]
  dataDirs := []
  dataDirExists := fun _ => false
  dataList := fun _ => some []
  findDataFile := fun id => some id
  parseEntry := fun _ => some ⟨[("Terminal", "true")]⟩
  whichOk := fun _ => true
  execOk := fun _ => true
  args := []

/-- Concrete world with one configured candidate "a" and one discovered
candidate "b", both with `Exec`, where every exec attempt fails. -/
def okWorld : World where
  xdgCurrentDesktop := some "GNOME"
  baseDirsOk := true
  configDirs := ["cfg"]
  configExists := fun _ name => name = XDG_TERMINALS_LIST
  configRead := fun _ _ => some ["a"]
  dataDirs := ["data"]
  dataDirExists := fun _ => true
  dataList := fun _ => some ["b"]
  findDataFile := fun id => some id
  parseEntry := fun p => some ⟨[("Exec", p)]⟩
  whichOk := fun _ => true
  execOk := fun _ => false
  args := []

/-- Concrete world for the configured-entry ordering: desktop "d", config
roots "h" then "s"; only the generic list exists under "h" (containing
"gen") and only the per-desktop list exists under "s" (containing "per"). -/
def crossWorld : World where
  xdgCurrentDesktop := some "d"
  baseDirsOk := true
  configDirs := ["h", "s"]
  configExists := fun dir name =>
    (dir = "h" && name = XDG_TERMINALS_LIST) ||
    (dir = "s" && name = "d" ++ "-" ++ XDG_TERMINALS_LIST)
  configRead := fun dir name =>
    if dir = "h" && name = XDG_TERMINALS_LIST then some ["gen"]
    else if dir = "s" && name = "d" ++ "-" ++ XDG_TERMINALS_LIST then some ["per"]
    else some []
  dataDirs := []
  dataDirExists := fun _ => false
  dataList := fun _ => some []
  findDataFile := fun id => some id
  parseEntry := fun _ => none
  whichOk := fun _ => true
  execOk := fun _ => false
  args := []

/-! Helper lemmas about the seen-set walk. -/

theorem mem_walkDedup (x : String) : ∀ (l seen : List String),
    x ∈ walkDedup seen l ↔ x ∈ l ∧ x ∉ seen := by
  intro l
  induction l with
  | nil => intro seen; simp [walkDedup]
  | cons id rest ih =>
    intro seen
    simp only [walkDedup]
    by_cases hid : id ∈ seen
    · rw [if_pos hid, ih seen]
      simp only [List.mem_cons]
      constructor
      · rintro ⟨hx, hs⟩; exact ⟨Or.inr hx, hs⟩
      · rintro ⟨hx | hx, hs⟩
        · exact absurd (hx ▸ hid) hs
        · exact ⟨hx, hs⟩
    · rw [if_neg hid]
      simp only [List.mem_cons, ih (id :: seen), List.mem_cons]
      constructor
      · rintro (rfl | ⟨hx, hs⟩)
        · exact ⟨Or.inl rfl, hid⟩
        · exact ⟨Or.inr hx, fun hxs => hs (Or.inr hxs)⟩
      · rintro ⟨rfl | hx, hs⟩
        · exact Or.inl rfl
        · by_cases hxi : x = id
          · exact Or.inl hxi
          · exact Or.inr ⟨hx, fun hc => hc.elim hxi hs⟩

theorem walkDedup_nodup : ∀ (l seen : List String), (walkDedup seen l).Nodup := by
  intro l
  induction l with
  | nil => intro seen; simp [walkDedup]
  | cons id rest ih =>
    intro seen
    simp only [walkDedup]
    by_cases hid : id ∈ seen
    · rw [if_pos hid]; exact ih seen
    · rw [if_neg hid, List.nodup_cons]
      refine ⟨fun hmem => ?_, ih (id :: seen)⟩
      exact ((mem_walkDedup id rest (id :: seen)).mp hmem).2 (List.mem_cons_self id seen)

theorem walkDedup_sublist : ∀ (l seen : List String), List.Sublist (walkDedup seen l) l := by
  intro l
  induction l with
  | nil => intro seen; simp [walkDedup]
  | cons id rest ih =>
    intro seen
    simp only [walkDedup]
    by_cases hid : id ∈ seen
    · rw [if_pos hid]; exact (ih seen).cons id
    · rw [if_neg hid]; exact (ih (id :: seen)).cons₂ id

theorem walkDedup_congr : ∀ (l s₁ s₂ : List String),
    (∀ x, x ∈ s₁ ↔ x ∈ s₂) → walkDedup s₁ l = walkDedup s₂ l := by
  intro l
  induction l with
  | nil => intro s₁ s₂ _; rfl
  | cons id rest ih =>
    intro s₁ s₂ h
    simp only [walkDedup]
    by_cases hid : id ∈ s₁
    · rw [if_pos hid, if_pos ((h id).mp hid)]
      exact ih s₁ s₂ h
    · rw [if_neg hid, if_neg (fun c => hid ((h id).mpr c))]
      rw [ih (id :: s₁) (id :: s₂) (fun x => by simp only [List.mem_cons, h x])]

theorem walkDedup_append : ∀ (l₁ seen l₂ : List String),
    walkDedup seen (l₁ ++ l₂) = walkDedup seen l₁ ++ walkDedup (l₁ ++ seen) l₂ := by
  intro l₁
  induction l₁ with
  | nil => intro seen l₂; simp [walkDedup]
  | cons id rest ih =>
    intro seen l₂
    simp only [List.cons_append, walkDedup, List.append_eq]
    by_cases hid : id ∈ seen
    · rw [if_pos hid, if_pos hid, ih seen l₂]
      congr 1
      refine walkDedup_congr l₂ _ _ (fun x => ?_)
      simp only [List.mem_cons, List.mem_append]
      exact ⟨fun h => Or.inr h, fun h => h.elim (fun hx => Or.inr (hx ▸ hid)) (fun h => h)⟩
    · rw [if_neg hid, if_neg hid, ih (id :: seen) l₂, List.cons_append]
      congr 2
      refine walkDedup_congr l₂ _ _ (fun x => ?_)
      simp only [List.mem_append, List.mem_cons]
      tauto

theorem walkDedup_indexOf (a b : String) (hab : a ≠ b) : ∀ (l seen : List String),
    a ∉ seen → b ∉ seen →
    ((walkDedup seen l).indexOf a < (walkDedup seen l).indexOf b ↔
      l.indexOf a < l.indexOf b) := by
  intro l
  induction l with
  | nil => intro seen _ _; simp [walkDedup]
  | cons id rest ih =>
    intro seen ha hb
    simp only [walkDedup]
    by_cases hid : id ∈ seen
    · rw [if_pos hid]
      have hia : id ≠ a := fun h => ha (h ▸ hid)
      have hib : id ≠ b := fun h => hb (h ▸ hid)
      rw [ih seen ha hb, List.indexOf_cons_ne rest hia, List.indexOf_cons_ne rest hib]
      omega
    · rw [if_neg hid]
      by_cases hia : id = a
      · subst hia
        rw [List.indexOf_cons_self, List.indexOf_cons_self,
          List.indexOf_cons_ne (walkDedup (id :: seen) rest) hab,
          List.indexOf_cons_ne rest hab]
        omega
      · by_cases hib : id = b
        · subst hib
          rw [List.indexOf_cons_self, List.indexOf_cons_self,
            List.indexOf_cons_ne (walkDedup (id :: seen) rest) hia,
            List.indexOf_cons_ne rest hia]
          omega
        · rw [List.indexOf_cons_ne (walkDedup (id :: seen) rest) hia,
            List.indexOf_cons_ne (walkDedup (id :: seen) rest) hib,
            List.indexOf_cons_ne rest hia, List.indexOf_cons_ne rest hib]
          have hrec := ih (id :: seen)
            (fun hc => (List.mem_cons.mp hc).elim (fun h => hia h.symm) ha)
            (fun hc => (List.mem_cons.mp hc).elim (fun h => hib h.symm) hb)
          omega

/-- C2: for every input configuration, the candidate sequence the
orchestrator walks (configured entries then present entries, deduplicated by
the seen-set) contains each identifier at most once (`Nodup`), is a
subsequence of the merged input (order preserved, with every configured
entry before every present entry), contains exactly the identifiers of the
input, splits as the deduplicated configured block followed by the
deduplicated present block, and lists identifiers in first-occurrence order
(relative order agrees with the order of first occurrences in the input). -/
theorem candidate_sequence_claim (conf pres : List String) :
    (candidateSequence conf pres).Nodup
  ∧ List.Sublist (candidateSequence conf pres) (conf ++ pres)
  ∧ (∀ x, x ∈ candidateSequence conf pres ↔ x ∈ conf ++ pres)
  ∧ candidateSequence conf pres = walkDedup [] conf ++ walkDedup conf pres
  ∧ (∀ a b, a ≠ b →
      ((candidateSequence conf pres).indexOf a < (candidateSequence conf pres).indexOf b ↔
        (conf ++ pres).indexOf a < (conf ++ pres).indexOf b)) := by
  refine ⟨walkDedup_nodup _ _, walkDedup_sublist _ _, fun x => ?_, ?_, fun a b hab => ?_⟩
  · rw [candidateSequence, mem_walkDedup]
    simp
  · rw [candidateSequence, walkDedup_append]
    congr 1
    exact walkDedup_congr pres _ _ (fun x => by simp)
  · exact walkDedup_indexOf a b hab (conf ++ pres) [] (by simp) (by simp)

/-- Witness for C2 at a concrete input with a duplicate identifier. -/
theorem candidate_sequence_claim_witness :
    ((candidateSequence ["a"] ["b", "a"]).indexOf "a" <
        (candidateSequence ["a"] ["b", "a"]).indexOf "b" ↔
      ((["a"] ++ ["b", "a"]).indexOf "a" < (["a"] ++ ["b", "a"]).indexOf "b")) :=
  (candidate_sequence_claim ["a"] ["b", "a"]).2.2.2.2 "a" "b" (by decide)

/-! Helper lemmas about the filter chain and the `;`-splitting. -/

theorem showMatch_iff (v : String) (desktops : List String) :
    showMatch v desktops = true ↔ ∃ item ∈ split_terminator v, item ∈ desktops := by
  simp [showMatch, List.any_eq_true]


theorem splitCharList_concat (sep : Char) : ∀ (l : List Char),
    splitCharList sep (l ++ [sep]) =
      ((splitCharList sep l).1, (splitCharList sep l).2 ++ [[]]) := by
  intro l
  induction l with
  | nil => simp [splitCharList]
  | cons c cs ih =>
    by_cases hc : c = sep
    · simp [splitCharList, hc, List.append_eq, ih]
    · simp [splitCharList, hc, List.append_eq, ih]

theorem rustSplit_concat (s : String) : rustSplit (s ++ ";") = rustSplit s ++ [""] := by
  have hdata : (s ++ ";").data = s.data ++ [';'] := by rw [String.data_append]
  simp only [rustSplit, rustSplitChar, hdata, splitCharList_concat]
  simp [List.map_append]

theorem showMatch_false_iff (v : String) (desktops : List String) :
    showMatch v desktops = false ↔ ∀ item ∈ split_terminator v, item ∉ desktops := by
  rw [← Bool.not_eq_true, showMatch_iff]
  simp

theorem entryAccepts_iff (sec : EntrySection) (desktops : List String)
    (whichOk : String → Bool) :
    entryAccepts sec desktops whichOk = true ↔
      (sec.attr "Hidden" ≠ some "true"
       ∧ (∀ v, sec.attr "NotShowIn" = some v →
            ∀ item ∈ split_terminator v, item ∉ desktops)
       ∧ (∀ v, sec.attr "OnlyShowIn" = some v →
            ∃ item ∈ split_terminator v, item ∈ desktops)
       ∧ (∀ t, sec.attr "TryExec" = some t → whichOk t = true)) := by
  unfold entryAccepts
  by_cases hH : sec.attr "Hidden" = some "true" <;>
  cases hN : sec.attr "NotShowIn" <;>
  cases hO : sec.attr "OnlyShowIn" <;>
  cases hT : sec.attr "TryExec" <;>
  simp [hH, hN, hO, hT, ← showMatch_iff, showMatch_false_iff]


theorem split_terminator_concat (s : String) : split_terminator (s ++ ";") = rustSplit s := by
  rw [split_terminator, rustSplit_concat]
  rw [if_pos (List.getLast?_concat _), List.dropLast_concat]

theorem getLast?_decomp {α : Type} : ∀ (l : List α) (a : α),
    l.getLast? = some a → l.dropLast ++ [a] = l := by
  intro l
  induction l with
  | nil => intro a h; exact absurd h (by simp)
  | cons x xs ih =>
    intro a h
    cases xs with
    | nil => simp only [List.getLast?_singleton, Option.some.injEq] at h; simp [h]
    | cons y ys =>
      rw [List.getLast?_cons_cons] at h
      have := ih a h
      rw [List.dropLast_cons₂, List.cons_append, this]

theorem desktops_any_empty_false (desktops : List String) (h : "" ∉ desktops) :
    desktops.any (fun desktop => desktop == "") = false := by
  rw [Bool.eq_false_iff]
  intro hc
  rw [List.any_eq_true] at hc
  obtain ⟨d, hd, hbeq⟩ := hc
  rw [beq_iff_eq] at hbeq
  exact h (hbeq ▸ hd)

theorem showMatch_concat (s : String) (desktops : List String) (h : "" ∉ desktops) :
    showMatch (s ++ ";") desktops = showMatch s desktops := by
  rw [showMatch, showMatch, split_terminator_concat, split_terminator]
  by_cases hx : (rustSplit s).getLast? = some ""
  · rw [if_pos hx]
    conv_lhs => rw [← getLast?_decomp (rustSplit s) "" hx]
    rw [List.any_append]
    simp [desktops_any_empty_false desktops h]
  · rw [if_neg hx]

/-- C3: the visibility/availability filter accepts a parsed descriptor iff
`Hidden` is not the exact string "true", and no `NotShowIn` item (split on
`;` with terminator semantics) string-equals a current desktop id, and some
`OnlyShowIn` item string-equals a current desktop id whenever that attribute
is present, and the `TryExec` executable resolves on the search path
whenever that attribute is present; `entryAccepts` applies the four checks
in exactly that short-circuiting source order. -/
theorem entry_filter_claim (sec : EntrySection) (desktops : List String)
    (whichOk : String → Bool) :
    entryAccepts sec desktops whichOk = true ↔
      (sec.attr "Hidden" ≠ some "true"
       ∧ (∀ v, sec.attr "NotShowIn" = some v →
            ∀ item ∈ split_terminator v, item ∉ desktops)
       ∧ (∀ v, sec.attr "OnlyShowIn" = some v →
            ∃ item ∈ split_terminator v, item ∈ desktops)
       ∧ (∀ t, sec.attr "TryExec" = some t → whichOk t = true)) :=
  entryAccepts_iff sec desktops whichOk

/-- Witness for C3: a descriptor with `OnlyShowIn=GNOME;KDE` under current
desktop `KDE` is accepted, instantiating the characterization. -/
theorem entry_filter_claim_witness :
    EntrySection.attr ⟨[("OnlyShowIn", "GNOME;KDE")]⟩ "Hidden" ≠ some "true"
  ∧ (∀ v, EntrySection.attr ⟨[("OnlyShowIn", "GNOME;KDE")]⟩ "NotShowIn" = some v →
      ∀ item ∈ split_terminator v, item ∉ ["KDE"])
  ∧ (∀ v, EntrySection.attr ⟨[("OnlyShowIn", "GNOME;KDE")]⟩ "OnlyShowIn" = some v →
      ∃ item ∈ split_terminator v, item ∈ ["KDE"])
  ∧ (∀ t, EntrySection.attr ⟨[("OnlyShowIn", "GNOME;KDE")]⟩ "TryExec" = some t →
      (fun _ => true) t = true) :=
  (entry_filter_claim ⟨[("OnlyShowIn", "GNOME;KDE")]⟩ ["KDE"] (fun _ => true)).mp (by decide)

/-- C9: a descriptor whose `OnlyShowIn` attribute is the empty string is
always rejected (terminator splitting of `""` yields no items), and a
trailing `;` in a `NotShowIn`/`OnlyShowIn` value contributes no matching
item: as long as no current desktop id is the empty string (which
`desktops()` guarantees), the match outcome is unchanged. -/
theorem only_show_in_claim :
    (∀ (sec : EntrySection) (desktops : List String) (whichOk : String → Bool),
        sec.attr "OnlyShowIn" = some "" → entryAccepts sec desktops whichOk = false)
  ∧ (∀ (s : String) (desktops : List String), "" ∉ desktops →
        showMatch (s ++ ";") desktops = showMatch s desktops) := by
  constructor
  · intro sec desktops whichOk h
    have hsm : showMatch "" desktops = false := rfl
    rw [Bool.eq_false_iff]
    intro hacc
    rw [entryAccepts_iff] at hacc
    obtain ⟨_, _, hos, _⟩ := hacc
    have := hos "" h
    rw [← showMatch_iff, hsm] at this
    cases this
  · exact showMatch_concat

/-- Witness for C9 at concrete inputs. -/
theorem only_show_in_claim_witness :
    entryAccepts ⟨[("OnlyShowIn", "")]⟩ ["GNOME"] (fun _ => true) = false
  ∧ showMatch ("GNOME" ++ ";") ["GNOME"] = showMatch "GNOME" ["GNOME"] :=
  ⟨only_show_in_claim.1 ⟨[("OnlyShowIn", "")]⟩ ["GNOME"] (fun _ => true) (by decide),
   only_show_in_claim.2 "GNOME" ["GNOME"] (by decide)⟩


theorem desktopsFrom_not_mem_empty (v : String) : "" ∉ desktopsFrom v := by
  intro h
  rw [desktopsFrom, List.mem_filter] at h
  exact absurd h.2 (by decide)

theorem foldl_append_space : ∀ (args : List String) (x : String),
    args.foldl (fun acc a => acc ++ " " ++ a) x =
      x ++ args.foldr (fun a acc => " " ++ a ++ acc) "" := by
  intro args
  induction args with
  | nil => intro x; simp [List.foldl, List.foldr]
  | cons a as ih =>
    intro x
    simp only [List.foldl, List.foldr]
    rw [ih]
    simp [String.append_assoc]

theorem joinSpace_cons (x : String) (xs : List String) :
    joinSpace (x :: xs) = x ++ xs.foldr (fun a acc => " " ++ a ++ acc) "" :=
  foldl_append_space xs x

theorem exec_arg_eq (sec : EntrySection) : exec_arg sec = resolvedExecArgSpec sec := by
  unfold exec_arg resolvedExecArgSpec
  cases hx : sec.attr "X-ExecArg" <;> cases he : sec.attr "ExecArg" <;>
    simp [Option.orElse]

/-- C4: for a descriptor whose section carries `Exec = E`, the string handed
to the shell as `-c <string>` is `E` verbatim when the extra-argument list is
empty, and otherwise `E`, the resolved exec-arg flag (`X-ExecArg` over
`ExecArg` over the default `-e`), then each extra argument, joined by single
spaces. -/
theorem launch_command_claim (sec : EntrySection) (args : List String) (E : String)
    (hE : sec.attr "Exec" = some E) :
    shellCommand sec args =
      some (if args = [] then E
            else (E ++ " " ++ resolvedExecArgSpec sec) ++
                 args.foldr (fun a acc => " " ++ a ++ acc) "") := by
  unfold shellCommand
  rw [hE]
  cases args with
  | nil => simp
  | cons a as =>
    simp only [List.isEmpty_cons, Bool.false_eq_true, if_false,
      List.cons_ne_nil, if_neg (List.cons_ne_nil a as)]
    rw [joinSpace_cons, exec_arg_eq]
    simp [String.append_assoc]

/-- Witness for C4: `Exec=foo-term` with extra arguments `vim file.txt` and
no `ExecArg` yields exactly the string "foo-term -e vim file.txt". -/
theorem launch_command_claim_witness :
    shellCommand ⟨[("Exec", "foo-term")]⟩ ["vim", "file.txt"] =
      some (if (["vim", "file.txt"] : List String) = [] then "foo-term"
            else ("foo-term" ++ " " ++ resolvedExecArgSpec ⟨[("Exec", "foo-term")]⟩) ++
                 (["vim", "file.txt"].foldr (fun a acc => " " ++ a ++ acc) ""))
  ∧ shellCommand ⟨[("Exec", "foo-term")]⟩ ["vim", "file.txt"] = some "foo-term -e vim file.txt" :=
  ⟨launch_command_claim ⟨[("Exec", "foo-term")]⟩ ["vim", "file.txt"] "foo-term" (by decide),
   by decide⟩

/-- C10: the launch-command construction is not injective in the extra
argument list: the distinct lists `["a b"]` and `["a", "b"]` produce the
character-for-character identical shell command string, so argument
boundaries are not preserved across the `sh -c` invocation. -/
theorem join_not_injective_claim :
    shellCommand ⟨[("Exec", "foo-term")]⟩ ["a b"] =
      shellCommand ⟨[("Exec", "foo-term")]⟩ ["a", "b"]
  ∧ (["a b"] : List String) ≠ ["a", "b"]
  ∧ shellCommand ⟨[("Exec", "foo-term")]⟩ ["a b"] = some "foo-term -e a b" :=
  ⟨by decide, by decide, by decide⟩


/-- C1 counterexample: candidate "a" passes the visibility/availability
filter but its section has no `Exec` attribute; the run is aborted by the
`expect` panic (outcome `panicked`), and the next candidate "b" — whose
launch would succeed — is never reached. The launch step does not fail only
that candidate and does not continue. -/
theorem missing_exec_counterexample :
    passesFilter panicEnv "a" = true
  ∧ (panicEnv.parseEntry "a").map (fun sec => sec.attr "Exec") = some none
  ∧ step panicEnv "b" = .launched "bterm"
  ∧ runSeq panicEnv [] 0 ["a", "b"] = .panicked 0 "a" :=
  ⟨by decide, by decide, by decide, by decide⟩

/-- C1 (amended): a not-yet-seen candidate whose descriptor is found,
parses, and passes the filter but lacks `Exec` makes the whole run abort
with the `expect` panic at that candidate; no later candidate is
processed. -/
theorem missing_exec_panics (e : Env) (id path : String) (sec : EntrySection)
    (hf : e.findDataFile id = some path) (hp : e.parseEntry path = some sec)
    (ha : entryAccepts sec e.desktops e.whichOk = true)
    (hx : sec.attr "Exec" = none) :
    ∀ (seen : List String) (idx : Nat) (rest : List String), id ∉ seen →
      runSeq e seen idx (id :: rest) = .panicked idx id := by
  intro seen idx rest hid
  have hstep : step e id = .panicStop := by
    simp [step, hf, hp, ha, shellCommand, hx]
  simp only [runSeq, if_neg hid, hstep]

/-- Witness for the amended C1 at a concrete environment. -/
theorem missing_exec_panics_witness :
    runSeq panicEnv [] 5 ["a"] = .panicked 5 "a" :=
  missing_exec_panics panicEnv "a" "a" ⟨[("Terminal", "true")]⟩ (by decide) (by decide)
    (by decide) (by decide) [] 5 [] (by decide)

theorem takeThrough_sublist (p : α → Bool) : ∀ l : List α,
    List.Sublist (takeThrough p l) l := by
  intro l
  induction l with
  | nil => simp [takeThrough]
  | cons x xs ih =>
    simp only [takeThrough]
    by_cases hp : p x = true
    · rw [if_pos hp]; exact (List.nil_sublist xs).cons₂ x
    · rw [if_neg hp]; exact ih.cons₂ x

theorem step_ne_panic_attemptable (e : Env) (id : String) (h : step e id ≠ .panicStop) :
    isAttemptable e id = passesFilter e id := by
  unfold isAttemptable passesFilter
  cases hf : e.findDataFile id with
  | none => simp [step, hf]
  | some path =>
    cases hp : e.parseEntry path with
    | none => simp [step, hf, hp]
    | some sec =>
      by_cases ha : entryAccepts sec e.desktops e.whichOk = true
      · cases hs : shellCommand sec e.args with
        | none =>
          exfalso
          apply h
          simp [step, hf, hp, ha, hs]
        | some cmd =>
          by_cases he : e.execOk cmd = true
          · simp [step, hf, hp, ha, hs, he]
          · have he' : e.execOk cmd = false := by rw [Bool.eq_false_iff]; exact he
            simp [step, hf, hp, ha, hs, he']
      · have ha' : entryAccepts sec e.desktops e.whichOk = false := by
          rw [Bool.eq_false_iff]; exact ha
        simp [step, hf, hp, ha']

theorem attempts_eq_takeThrough (e : Env) : ∀ (cs seen : List String),
    (∀ id ∈ cs, step e id ≠ .panicStop) →
    attempts e seen cs =
      takeThrough (launches e) ((walkDedup seen cs).filter (isAttemptable e)) := by
  intro cs
  induction cs with
  | nil => intro seen _; rfl
  | cons id rest ih =>
    intro seen h
    have hrest : ∀ x ∈ rest, step e x ≠ .panicStop :=
      fun x hx => h x (List.mem_cons_of_mem _ hx)
    simp only [attempts, walkDedup]
    by_cases hid : id ∈ seen
    · rw [if_pos hid, if_pos hid]
      exact ih seen hrest
    · rw [if_neg hid, if_neg hid]
      cases hstep : step e id with
      | panicStop => exact absurd hstep (h id (List.mem_cons_self _ _))
      | launched cmd =>
        have h1 : isAttemptable e id = true := by simp [isAttemptable, hstep]
        have h2 : launches e id = true := by simp [launches, hstep]
        simp [List.filter_cons, h1, takeThrough, h2]
      | execFailed cmd =>
        have h1 : isAttemptable e id = true := by simp [isAttemptable, hstep]
        have h2 : launches e id = false := by simp [launches, hstep]
        simp only [List.filter_cons, h1, if_true, takeThrough, h2,
          Bool.false_eq_true, if_false]
        rw [ih (id :: seen) hrest]
      | skip =>
        have h1 : isAttemptable e id = false := by simp [isAttemptable, hstep]
        simp only [List.filter_cons, h1, Bool.false_eq_true, if_false]
        exact ih (id :: seen) hrest

/-- C5 counterexample: candidate "b" passes the filter and its exec attempt
fails; candidate "c" is the next candidate passing the filter, yet "c" is
never attempted (the attempt list stops at "b") because "c" lacks `Exec`
and the run aborts with the panic instead. -/
theorem fallback_order_counterexample :
    passesFilter abortEnv "b" = true
  ∧ isAttemptable abortEnv "b" = true
  ∧ launches abortEnv "b" = false
  ∧ passesFilter abortEnv "c" = true
  ∧ attempts abortEnv [] ["b", "c"] = ["b"]
  ∧ runSeq abortEnv [] 0 ["b", "c"] = .panicked 1 "c" :=
  ⟨by decide, by decide, by decide, by decide, by decide, by decide⟩

/-- C5 (amended): provided no candidate hits the missing-`Exec` panic, the
ids on which a process replacement is attempted are exactly the
filter-passing candidates of the deduplicated sequence, in candidate order,
up to and including the first successful launch; the attempt list has no
duplicates (no candidate is attempted twice) and every attempted candidate
passes the filter. -/
theorem attempts_in_order_claim (e : Env) (cs : List String)
    (hnp : ∀ id ∈ cs, step e id ≠ .panicStop) :
    attempts e [] cs =
      takeThrough (launches e) ((walkDedup [] cs).filter (isAttemptable e))
  ∧ (∀ id ∈ cs, isAttemptable e id = passesFilter e id)
  ∧ (attempts e [] cs).Nodup
  ∧ (∀ id ∈ attempts e [] cs, passesFilter e id = true) := by
  have heq := attempts_eq_takeThrough e cs [] hnp
  refine ⟨heq, fun id hid => step_ne_panic_attemptable e id (hnp id hid), ?_, ?_⟩
  · rw [heq]
    have h1 := takeThrough_sublist (launches e)
      ((walkDedup [] cs).filter (isAttemptable e))
    have h2 : List.Sublist ((walkDedup [] cs).filter (isAttemptable e))
        (walkDedup [] cs) := List.filter_sublist _
    exact (walkDedup_nodup cs []).sublist (h1.trans h2)
  · intro id hid
    rw [heq] at hid
    have hfil := (takeThrough_sublist _ _).subset hid
    rw [List.mem_filter] at hfil
    have hin : id ∈ cs := ((mem_walkDedup id cs []).mp hfil.1).1
    have := step_ne_panic_attemptable e id (hnp id hin)
    rw [this] at hfil
    exact hfil.2

/-- Witness for the amended C5: rejected "h" is skipped, "t1" fails and is
followed by "t2" which launches, "t3" is never attempted. -/
theorem attempts_in_order_claim_witness :
    attempts fallbackEnv [] ["h", "t1", "t2", "t3"] =
      takeThrough (launches fallbackEnv)
        ((walkDedup [] ["h", "t1", "t2", "t3"]).filter (isAttemptable fallbackEnv))
  ∧ attempts fallbackEnv [] ["h", "t1", "t2", "t3"] = ["t1", "t2"] :=
  ⟨(attempts_in_order_claim fallbackEnv ["h", "t1", "t2", "t3"] (by decide)).1, by decide⟩


theorem runSeq_replaced (e : Env) : ∀ (l seen : List String) (idx i : Nat) (id cmd : String),
    runSeq e seen idx l = .replaced i id cmd → id ∈ l ∧ step e id = .launched cmd := by
  intro l
  induction l with
  | nil => intro seen idx i id cmd h; exact absurd h (by simp [runSeq])
  | cons x rest ih =>
    intro seen idx i id cmd h
    simp only [runSeq] at h
    by_cases hx : x ∈ seen
    · rw [if_pos hx] at h
      have := ih seen (idx + 1) i id cmd h
      exact ⟨List.mem_cons_of_mem _ this.1, this.2⟩
    · rw [if_neg hx] at h
      cases hstep : step e x with
      | launched cmd2 =>
        rw [hstep] at h
        simp only [Outcome.replaced.injEq] at h
        exact ⟨h.2.1 ▸ List.mem_cons_self _ _, h.2.1 ▸ h.2.2 ▸ hstep⟩
      | panicStop => rw [hstep] at h; cases h
      | skip =>
        rw [hstep] at h
        have := ih (x :: seen) (idx + 1) i id cmd h
        exact ⟨List.mem_cons_of_mem _ this.1, this.2⟩
      | execFailed cmd2 =>
        rw [hstep] at h
        have := ih (x :: seen) (idx + 1) i id cmd h
        exact ⟨List.mem_cons_of_mem _ this.1, this.2⟩

theorem runSeq_panicked (e : Env) : ∀ (l seen : List String) (idx i : Nat) (id : String),
    runSeq e seen idx l = .panicked i id → id ∈ l ∧ step e id = .panicStop := by
  intro l
  induction l with
  | nil => intro seen idx i id h; exact absurd h (by simp [runSeq])
  | cons x rest ih =>
    intro seen idx i id h
    simp only [runSeq] at h
    by_cases hx : x ∈ seen
    · rw [if_pos hx] at h
      have := ih seen (idx + 1) i id h
      exact ⟨List.mem_cons_of_mem _ this.1, this.2⟩
    · rw [if_neg hx] at h
      cases hstep : step e x with
      | launched cmd2 => rw [hstep] at h; cases h
      | panicStop =>
        rw [hstep] at h
        simp only [Outcome.panicked.injEq] at h
        exact ⟨h.2 ▸ List.mem_cons_self _ _, h.2 ▸ hstep⟩
      | skip =>
        rw [hstep] at h
        have := ih (x :: seen) (idx + 1) i id h
        exact ⟨List.mem_cons_of_mem _ this.1, this.2⟩
      | execFailed cmd2 =>
        rw [hstep] at h
        have := ih (x :: seen) (idx + 1) i id h
        exact ⟨List.mem_cons_of_mem _ this.1, this.2⟩

theorem runSeq_exhausted_seen (e : Env) : ∀ (l seen : List String) (idx : Nat)
    (s : List String) (i : Nat),
    runSeq e seen idx l = .exhausted s i → ∀ x ∈ s, x ∈ seen ∨ x ∈ l := by
  intro l
  induction l with
  | nil =>
    intro seen idx s i h x hx
    simp only [runSeq, Outcome.exhausted.injEq] at h
    exact Or.inl (h.1 ▸ hx)
  | cons y rest ih =>
    intro seen idx s i h x hx
    simp only [runSeq] at h
    by_cases hy : y ∈ seen
    · rw [if_pos hy] at h
      rcases ih seen (idx + 1) s i h x hx with hs | hr
      · exact Or.inl hs
      · exact Or.inr (List.mem_cons_of_mem _ hr)
    · rw [if_neg hy] at h
      cases hstep : step e y with
      | launched cmd2 => rw [hstep] at h; cases h
      | panicStop => rw [hstep] at h; cases h
      | skip =>
        rw [hstep] at h
        rcases ih (y :: seen) (idx + 1) s i h x hx with hs | hr
        · rcases List.mem_cons.mp hs with rfl | hs2
          · exact Or.inr (List.mem_cons_self _ _)
          · exact Or.inl hs2
        · exact Or.inr (List.mem_cons_of_mem _ hr)
      | execFailed cmd2 =>
        rw [hstep] at h
        rcases ih (y :: seen) (idx + 1) s i h x hx with hs | hr
        · rcases List.mem_cons.mp hs with rfl | hs2
          · exact Or.inr (List.mem_cons_self _ _)
          · exact Or.inl hs2
        · exact Or.inr (List.mem_cons_of_mem _ hr)

theorem launches_false_iff (e : Env) (id : String) :
    launches e id = false ↔ ∀ cmd, step e id ≠ .launched cmd := by
  unfold launches
  cases hstep : step e id with
  | launched cmd =>
    constructor
    · intro h; exact absurd h (by simp)
    · intro h; exact absurd rfl (h cmd)
  | panicStop => exact ⟨fun _ cmd hc => StepResult.noConfusion hc, fun _ => rfl⟩
  | skip => exact ⟨fun _ cmd hc => StepResult.noConfusion hc, fun _ => rfl⟩
  | execFailed cmd2 => exact ⟨fun _ cmd hc => StepResult.noConfusion hc, fun _ => rfl⟩

theorem runSeq_exhausted_iff (e : Env) : ∀ (l seen : List String) (idx : Nat),
    (∀ id ∈ l, step e id ≠ .panicStop) →
    ((∃ s i, runSeq e seen idx l = .exhausted s i) ↔
      ∀ id ∈ l, id ∉ seen → ∀ cmd, step e id ≠ .launched cmd) := by
  intro l
  induction l with
  | nil =>
    intro seen idx _
    constructor
    · intro _ id hid; cases hid
    · intro _; exact ⟨seen, idx, rfl⟩
  | cons x rest ih =>
    intro seen idx h
    have hrest : ∀ id ∈ rest, step e id ≠ .panicStop :=
      fun id hid => h id (List.mem_cons_of_mem _ hid)
    simp only [runSeq]
    by_cases hx : x ∈ seen
    · rw [if_pos hx, ih seen (idx + 1) hrest]
      constructor
      · intro hr id hid hns
        rcases List.mem_cons.mp hid with rfl | hid2
        · exact absurd hx hns
        · exact hr id hid2 hns
      · intro hr id hid hns
        exact hr id (List.mem_cons_of_mem _ hid) hns
    · rw [if_neg hx]
      cases hstep : step e x with
      | panicStop => exact absurd hstep (h x (List.mem_cons_self _ _))
      | launched cmd =>
        constructor
        · rintro ⟨s, i, hc⟩; cases hc
        · intro hr; exact absurd hstep (hr x (List.mem_cons_self _ _) hx cmd)
      | skip =>
        rw [ih (x :: seen) (idx + 1) hrest]
        constructor
        · intro hr id hid hns
          rcases List.mem_cons.mp hid with rfl | hid2
          · intro cmd hc; rw [hstep] at hc; cases hc
          · by_cases hxid : id = x
            · subst hxid; intro cmd hc; rw [hstep] at hc; cases hc
            · exact hr id hid2 (fun hc => (List.mem_cons.mp hc).elim hxid hns)
        · intro hr id hid hns
          exact hr id (List.mem_cons_of_mem _ hid)
            (fun hc => hns (List.mem_cons_of_mem _ hc))
      | execFailed cmd2 =>
        rw [ih (x :: seen) (idx + 1) hrest]
        constructor
        · intro hr id hid hns
          rcases List.mem_cons.mp hid with rfl | hid2
          · intro cmd hc; rw [hstep] at hc; cases hc
          · by_cases hxid : id = x
            · subst hxid; intro cmd hc; rw [hstep] at hc; cases hc
            · exact hr id hid2 (fun hc => (List.mem_cons.mp hc).elim hxid hns)
        · intro hr id hid hns
          exact hr id (List.mem_cons_of_mem _ hid)
            (fun hc => hns (List.mem_cons_of_mem _ hc))


/-- C6 counterexample: in `panicWorld` no enumerated fatal error occurs and
no passing candidate's launch succeeds (the only candidate "a" passes the
filter and never launches), yet the process exits non-zero (Rust panic exit
status 101, from the missing-`Exec` `expect`), contradicting both halves of
the claim. -/
theorem exit_status_counterexample :
    exitCode (mainModel panicWorld) = some 101
  ∧ mainModel panicWorld = .ok (.panicked 0 "a")
  ∧ passesFilter (panicWorld.env ["GNOME"]) "a" = true
  ∧ launches (panicWorld.env ["GNOME"]) "a" = false :=
  ⟨rfl, rfl, by decide, by decide⟩

/-- C6 (amended): provided no candidate hits the missing-`Exec` panic, the
program exits 0 exactly when no fatal error occurs and no candidate's exec
succeeds (no terminal launched is still success); and in general a non-zero
exit happens only on one of the four fatal errors (missing desktop context,
base-directory failure, config-file read error, data-root listing error) or
on the missing-`Exec` panic. -/
theorem exit_status_claim (w : World) (desktops conf pres : List String)
    (h1 : desktopsResult w = .ok desktops) (h2 : w.baseDirsOk = true)
    (h3 : configured_entries w desktops = .ok conf)
    (h4 : present_entries w = .ok pres)
    (h5 : ∀ id ∈ conf ++ pres, step (w.env desktops) id ≠ .panicStop) :
    (exitCode (mainModel w) = some 0 ↔
      ∀ id ∈ conf ++ pres, launches (w.env desktops) id = false)
  ∧ (∀ (w2 : World) (n : Nat), exitCode (mainModel w2) = some n → n ≠ 0 →
      (∃ f, mainModel w2 = .error f) ∨ ∃ i id, mainModel w2 = .ok (.panicked i id)) := by
  constructor
  · have hconf : ∀ id ∈ conf, step (w.env desktops) id ≠ .panicStop :=
      fun id h => h5 id (List.mem_append_left _ h)
    have hpres : ∀ id ∈ pres, step (w.env desktops) id ≠ .panicStop :=
      fun id h => h5 id (List.mem_append_right _ h)
    cases hc : runSeq (w.env desktops) [] 0 conf with
    | replaced i id cmd =>
      have hrep := runSeq_replaced (w.env desktops) conf [] 0 i id cmd hc
      have hmain : mainModel w = .ok (.replaced i id cmd) := by
        simp [mainModel, h1, h2, h3, hc]
      rw [hmain]
      constructor
      · intro h; cases h
      · intro hall
        have hl : launches (w.env desktops) id = true := by simp [launches, hrep.2]
        rw [hall id (List.mem_append_left _ hrep.1)] at hl
        cases hl
    | panicked i id =>
      have hpan := runSeq_panicked (w.env desktops) conf [] 0 i id hc
      exact absurd hpan.2 (hconf id hpan.1)
    | exhausted s i =>
      cases hp : runSeq (w.env desktops) s i pres with
      | replaced i2 id cmd =>
        have hrep := runSeq_replaced (w.env desktops) pres s i i2 id cmd hp
        have hmain : mainModel w = .ok (.replaced i2 id cmd) := by
          simp [mainModel, h1, h2, h3, hc, h4, hp]
        rw [hmain]
        constructor
        · intro h; cases h
        · intro hall
          have hl : launches (w.env desktops) id = true := by simp [launches, hrep.2]
          rw [hall id (List.mem_append_right _ hrep.1)] at hl
          cases hl
      | panicked i2 id =>
        have hpan := runSeq_panicked (w.env desktops) pres s i i2 id hp
        exact absurd hpan.2 (hpres id hpan.1)
      | exhausted s2 i2 =>
        have hmain : mainModel w = .ok (.exhausted s2 i2) := by
          simp [mainModel, h1, h2, h3, hc, h4, hp]
        rw [hmain]
        have hcnoL := (runSeq_exhausted_iff (w.env desktops) conf [] 0 hconf).mp
          ⟨s, i, hc⟩
        have hpnoL := (runSeq_exhausted_iff (w.env desktops) pres s i hpres).mp
          ⟨s2, i2, hp⟩
        constructor
        · intro _ id hid
          rw [launches_false_iff]
          rcases List.mem_append.mp hid with hidc | hidp
          · exact hcnoL id hidc (by simp)
          · by_cases hins : id ∈ s
            · rcases runSeq_exhausted_seen (w.env desktops) conf [] 0 s i hc id hins with
                hnil | hidc
              · cases hnil
              · exact hcnoL id hidc (by simp)
            · exact hpnoL id hidp hins
        · intro _; rfl
  · intro w2 n hn hne
    cases hm : mainModel w2 with
    | error f => exact Or.inl ⟨f, rfl⟩
    | ok o =>
      cases o with
      | replaced i id cmd => rw [hm] at hn; cases hn
      | panicked i id => exact Or.inr ⟨i, id, rfl⟩
      | exhausted s i =>
        rw [hm] at hn
        simp only [exitCode, Option.some.injEq] at hn
        exact absurd hn.symm hne

/-- Witness for the amended C6: a world where every exec attempt fails
exits 0. -/
theorem exit_status_claim_witness :
    (exitCode (mainModel okWorld) = some 0 ↔
      ∀ id ∈ ["a"] ++ ["b"], launches (okWorld.env ["GNOME"]) id = false)
  ∧ exitCode (mainModel okWorld) = some 0 :=
  ⟨(exit_status_claim okWorld ["GNOME"] ["a"] ["b"] rfl rfl rfl rfl (by decide)).1, rfl⟩


/-- C8 counterexample: for the desktop list `["d1"]` the searched file names
are not `["d1-terminals.list", "terminals.list"]` (the actual names carry
the `xdg-` application prefix). -/
theorem config_file_names_counterexample :
    config_file_names ["d1"] ≠ ["d1-terminals.list", "terminals.list"] := by decide

/-- C8 (amended): for every desktop-id list `[d1, ..., dn]` the ordered list
of preference-list file names searched for is exactly
`["d1-xdg-terminals.list", ..., "dn-xdg-terminals.list",
"xdg-terminals.list"]`. -/
theorem config_file_names_claim (desktops : List String) :
    config_file_names desktops =
      desktops.map (fun d => d ++ "-xdg-terminals.list") ++ ["xdg-terminals.list"] := by
  unfold config_file_names XDG_TERMINALS_LIST
  have hfun : (fun desktop : String => desktop ++ "-" ++ "xdg-terminals.list") =
      (fun desktop : String => desktop ++ "-xdg-terminals.list") := by
    funext d
    rw [String.append_assoc]
    rfl
  rw [hfun]

/-- C7 counterexample: with config roots "h" then "s" where only the generic
list exists under "h" and only the per-desktop list exists under "s", the
generic list's path — and hence its entry "gen" — precedes the per-desktop
entry "per": per-desktop entries do not precede generic entries across
roots. -/
theorem config_order_counterexample :
    config_paths ["h", "s"] (config_file_names ["d"]) crossWorld.configExists =
      [("h", "xdg-terminals.list"), ("s", "d-xdg-terminals.list")]
  ∧ configured_entries crossWorld ["d"] = .ok ["gen", "per"]
  ∧ crossWorld.configRead "h" "xdg-terminals.list" = some ["gen"]
  ∧ crossWorld.configRead "s" "d-xdg-terminals.list" = some ["per"] :=
  ⟨by decide, rfl, by decide, by decide⟩

/-- C7 (amended): preference-list paths are enumerated root-major — for each
config root in priority order, the existing per-desktop file names in
desktop order followed by the existing generic name; so per-desktop entries
precede the generic entries only within one root, while a later root's
per-desktop entries follow an earlier root's generic entries. All
configured entries still precede all discovered entries in the walked
candidate sequence. -/
theorem config_order_claim (dirs desktops : List String) (ex : String → String → Bool) :
    config_paths dirs (config_file_names desktops) ex =
      dirs.flatMap (fun dir =>
        (((desktops.map (fun d => d ++ "-" ++ XDG_TERMINALS_LIST)) ++
            [XDG_TERMINALS_LIST]).filter (fun name => ex dir name)).map
          (fun name => (dir, name)))
  ∧ (∀ conf pres : List String,
      candidateSequence conf pres = walkDedup [] conf ++ walkDedup conf pres) := by
  constructor
  · unfold config_paths config_file_names
    induction dirs with
    | nil => rfl
    | cons dir rest ih =>
      simp only [List.flatMap_cons]
      rw [List.filter_append, ih]
      congr 1
      rw [List.filter_map]
      rfl
  · intro conf pres
    rw [candidateSequence, walkDedup_append]
    congr 1
    exact walkDedup_congr pres _ _ (fun x => by simp)

end XdgTermExec
